import Mathlib

/-!
Verification development for the language-intelligence (LSP) client engine of
the filesystem-mcp repository. The definitions below are a shallow embedding of
the LspProcess and LspService classes (spawned subprocess client, stream
framer, RPC correlator, document synchronization, edit applier, client
router). Bytes of the subprocess stream are modelled as characters, one byte
per character, so string concatenation models buffer accumulation exactly as
the source performs it. Observable side effects (stream writes, promise
resolutions and rejections, log lines, process kills) are collected in an
effect list; asynchronous callbacks (request timeout expiry, subprocess exit)
are modelled as separate transition functions on the client state.
-/

set_option maxHeartbeats 1000000

namespace Lsp

/-- NotifyParams models the params argument of sendNotification; only the
fields the specification reasons about (path and version of document
synchronization notifications) are retained, other payloads are collapsed to
the empty variant. -/
inductive NotifyParams where
  | empty : NotifyParams
  | didOpenP (path : String) (version : Nat) : NotifyParams
  | didChangeP (path : String) (version : Nat) : NotifyParams
  deriving DecidableEq

/-- Outgoing models a framed JSON-RPC message written to the subprocess
stdin: a request carrying its fresh id and method, or a notification. -/
inductive Outgoing where
  | request (id : Nat) (method : String) : Outgoing
  | notification (method : String) (params : NotifyParams) : Outgoing
  deriving DecidableEq

/-- LspError models the Error values constructed by the source. -/
inductive LspError where
  | notReady (method : String) : LspError
  | timeoutErr (id : Nat) : LspError
  | remoteErr (id : Nat) : LspError
  | unavailable : LspError
  | notInitialized : LspError
  | noLspConfigured (path : String) : LspError
  deriving DecidableEq

/-- Effect is one observable side effect of a client operation: writing a
message to the subprocess, resolving or rejecting a pending request promise,
returning an already-rejected promise from sendRequest, logging, or killing
the subprocess. -/
inductive Effect where
  | write (m : Outgoing) : Effect
  | rejectCall (e : LspError) : Effect
  | reject (id : Nat) (e : LspError) : Effect
  | resolve (id : Nat) : Effect
  | log (s : String) : Effect
  | kill : Effect
  deriving DecidableEq

/-- ClientState models the mutable fields of one LspProcess instance.
processAlive models this.process being non-null; pendingRequests keeps the
ids of the pending map (the resolve/reject callbacks are observed through
Effect values); openDocuments and diagnostics model the two Maps. -/
structure ClientState where
  processAlive : Bool
  isInitialized : Bool
  requestIdCounter : Nat
  pendingRequests : List Nat
  openDocuments : List (String × Nat)
  diagnostics : List (String × List Nat)
  deriving DecidableEq

/-- setAssoc models JavaScript Map.prototype.set: update the entry in place
if the key is present, otherwise append a new entry. -/
def setAssoc {β : Type} : List (String × β) → String → β → List (String × β)
  | [], k, v => [(k, v)]
  | (k', v') :: rest, k, v =>
    if k' = k then (k, v) :: rest else (k', v') :: setAssoc rest k v

/-- Message models a parsed incoming JSON-RPC message: optional id, optional
method, whether an error member is present, and the publishDiagnostics params
(uri and an abstracted diagnostics list). URI-to-path translation is modelled
as the identity on abstract path strings. -/
structure Message where
  id : Option Nat := none
  method : Option String := none
  isError : Bool := false
  uri : String := ""
  diags : List Nat := []
  deriving DecidableEq

/-- sendRequest models LspProcess.sendRequest: when the process is absent, or
the client is uninitialized and the method is not the initialize handshake,
it returns an already-rejected promise and changes nothing; otherwise it
allocates the next id, writes the framed request, and registers the pending
entry together with its timeout timer. -/
def sendRequest (s : ClientState) (method : String) : ClientState × List Effect :=
  if s.processAlive = false ∨ (s.isInitialized = false ∧ method ≠ "initialize") then
    (s, [Effect.rejectCall (LspError.notReady method)])
  else
    ({ s with requestIdCounter := s.requestIdCounter + 1,
              pendingRequests := s.pendingRequests ++ [s.requestIdCounter] },
     [Effect.write (Outgoing.request s.requestIdCounter method)])

/-- fireTimeout models the setTimeout callback registered by sendRequest
firing for request id: the pending entry is deleted and the promise is
rejected with the timeout error. -/
def fireTimeout (s : ClientState) (id : Nat) : ClientState × List Effect :=
  ({ s with pendingRequests := s.pendingRequests.erase id },
   [Effect.reject id (LspError.timeoutErr id)])

/-- sendNotification models LspProcess.sendNotification: when the process is
absent, or the client is uninitialized and the method is not the initialized
handshake notification, it logs and returns without writing; otherwise it
writes the framed notification. It never mutates client state. -/
def sendNotification (s : ClientState) (method : String) (params : NotifyParams) :
    ClientState × List Effect :=
  if s.processAlive = false ∨ (s.isInitialized = false ∧ method ≠ "initialized") then
    (s, [Effect.log "notification dropped"])
  else
    (s, [Effect.write (Outgoing.notification method params)])

/-- handleNonResponse models the method-dispatch chain of
LspProcess.handleMessage for messages that are not matched responses:
publishDiagnostics updates the diagnostics map, the window log-type methods
are only logged, unrecognized methods are logged, and a message with no
method at all is logged as unhandled. -/
def handleNonResponse (s : ClientState) (m : Message) : ClientState × List Effect :=
  match m.method with
  | some meth =>
    if meth = "textDocument/publishDiagnostics" then
      ({ s with diagnostics := setAssoc s.diagnostics m.uri m.diags },
       [Effect.log "publishDiagnostics"])
    else if meth = "window/showMessage" then (s, [Effect.log "showMessage"])
    else if meth = "window/logMessage" then (s, [Effect.log "logMessage"])
    else (s, [Effect.log "unhandled notification"])
  | none => (s, [Effect.log "unhandled message"])

/-- handleMessage models LspProcess.handleMessage: a message whose id matches
a pending request cancels the timer, resolves or rejects that promise and
deletes the entry; every other message falls to the notification dispatch
chain. -/
def handleMessage (s : ClientState) (m : Message) : ClientState × List Effect :=
  match m.id with
  | some i =>
    if i ∈ s.pendingRequests then
      ({ s with pendingRequests := s.pendingRequests.erase i },
       [if m.isError then Effect.reject i (LspError.remoteErr i) else Effect.resolve i])
    else handleNonResponse s m
  | none => handleNonResponse s m

/-- handleExit models the exit and error handlers installed in
LspProcess.start: they clear the initialized flag and the process handle and
log; nothing else is touched (the source comment reads: potentially implement
retry logic or notify clients). -/
def handleExit (s : ClientState) : ClientState × List Effect :=
  ({ s with isInitialized := false, processAlive := false }, [Effect.log "exited"])

/-- ensureDocumentOpen models LspProcess.ensureDocumentOpen after its await
of the initialization promise: if the client is not initialized the method
throws; if the document is already tracked it is a no-op; otherwise the file
content is read (the text payload is elided from the model), a didOpen
notification with version 1 is sent, and version 1 is recorded. -/
def ensureDocumentOpen (s : ClientState) (path : String) :
    Except LspError (ClientState × List Effect) :=
  if s.isInitialized = true then
    match s.openDocuments.lookup path with
    | some _ => Except.ok (s, [])
    | none =>
      let r := sendNotification s "textDocument/didOpen" (NotifyParams.didOpenP path 1)
      Except.ok ({ r.1 with openDocuments := setAssoc r.1.openDocuments path 1 }, r.2)
  else Except.error LspError.notInitialized

/-- formatPush models the tail of LspService.formatDocument after edits were
applied and written to disk: the stored version (with the JavaScript
falsy-zero fallback of the or-one expression) is incremented by one, stored,
and a didChange notification carrying the new version is sent. -/
def formatPush (s : ClientState) (path : String) : ClientState × List Effect :=
  let currentVersion : Nat :=
    match s.openDocuments.lookup path with
    | none => 1
    | some v => if v = 0 then 1 else v
  let newVersion := currentVersion + 1
  let s1 : ClientState := { s with openDocuments := setAssoc s.openDocuments path newVersion }
  sendNotification s1 "textDocument/didChange" (NotifyParams.didChangeP path newVersion)

/-- close models LspProcess.close: for a live process, the shutdown request
is attempted only when initialized (its awaited outcome is swallowed by the
catch), and the finally block sends the exit notification, kills the process
and clears the state. The model assumes no concurrent subprocess event occurs
between the steps of one close call. -/
def close (s : ClientState) : ClientState × List Effect :=
  if s.processAlive = true then
    let r1 := if s.isInitialized = true then sendRequest s "shutdown" else (s, [])
    let r2 := sendNotification r1.1 "exit" NotifyParams.empty
    ({ r2.1 with processAlive := false, isInitialized := false },
     r1.2 ++ r2.2 ++ [Effect.kill])
  else (s, [])

/-- isWrite recognizes stream-write effects. -/
def isWrite : Effect → Bool
  | Effect.write _ => true
  | _ => false

/- Client router (LspService). -/

/-- extname models Node path.extname for ordinary file names: the extension
of the final path segment from its last dot, empty for dotfiles and for
names without a dot. -/
def extname (p : String) : String :=
  let base := (p.toList.reverse.takeWhile (fun c => c != '/')).reverse
  let revAfter := base.reverse.takeWhile (fun c => c != '.')
  if revAfter.length = base.length then ""
  else if revAfter.length + 1 = base.length then ""
  else String.mk ('.' :: revAfter.reverse)

/-- lspInstanceKeys lists the keys of the lspServers configuration object;
the source configures exactly one server, under the typescript key. -/
def lspInstanceKeys : List String := ["typescript"]

/-- getLspInstance models this.lspInstances.get on the router: instances are
identified by their configuration key, absent keys yield none. -/
def getLspInstance (key : String) : Option String :=
  if key ∈ lspInstanceKeys then some key else none

/-- getLspInstanceForFile models LspService.getLspInstanceForFile: vue files
route to the vue instance, the four script extensions route to the
typescript instance, and every other extension falls back to the typescript
instance. -/
def getLspInstanceForFile (filePath : String) : Option String :=
  let ext := extname filePath
  if ext = ".vue" then getLspInstance "vue"
  else if ext ∈ [".ts", ".tsx", ".js", ".jsx"] then getLspInstance "typescript"
  else getLspInstance "typescript"

/-- selectClientOrFail models the shared prelude of the four public router
operations (getDiagnostics, getCompletions, findDefinition, formatDocument):
select the instance for the file and throw when none is configured. -/
def selectClientOrFail (filePath : String) : Except LspError String :=
  match getLspInstanceForFile filePath with
  | none => Except.error (LspError.noLspConfigured filePath)
  | some c => Except.ok c

/- Edit applier (LspService.formatDocument edit application). -/

/-- Pos is a zero-indexed line and character position. -/
structure Pos where
  line : Nat
  character : Nat
  deriving DecidableEq

/-- Range is a half-open text range; the source field named end is rendered
endPos because end is a Lean keyword. -/
structure Range where
  start : Pos
  endPos : Pos
  deriving DecidableEq

/-- TextEdit is a range plus replacement text, as returned by the formatting
request. -/
structure TextEdit where
  range : Range
  newText : String
  deriving DecidableEq

/-- posLtStrict states that position p is strictly earlier than q in the
(line, character) lexicographic order the comparator uses. -/
def posLtStrict (p q : Pos) : Prop :=
  p.line < q.line ∨ (p.line = q.line ∧ p.character < q.character)

/-- posLe states that position p is at or before q. -/
def posLe (p q : Pos) : Prop :=
  p.line < q.line ∨ (p.line = q.line ∧ p.character ≤ q.character)

/-- editBefore models the sort comparator of formatDocument reporting that a
may be placed before b: descending by start line, then by start character. -/
def editBefore (a b : TextEdit) : Bool :=
  b.range.start.line < a.range.start.line ||
    (b.range.start.line == a.range.start.line &&
      b.range.start.character ≤ a.range.start.character)

/-- insertEdit inserts one edit into an already sorted list, keeping the
comparator order; together with sortEdits it models the stable sort the
source applies to the edit array. -/
def insertEdit (e : TextEdit) : List TextEdit → List TextEdit
  | [] => [e]
  | f :: rest => if editBefore e f then e :: f :: rest else f :: insertEdit e rest

/-- sortEdits sorts the edits by descending start position. -/
def sortEdits : List TextEdit → List TextEdit
  | [] => []
  | e :: rest => insertEdit e (sortEdits rest)

/-- splice models Array.prototype.splice on the line array: delete delCount
lines at start and insert items there. -/
def splice (l : List String) (start delCount : Nat) (items : List String) : List String :=
  l.take start ++ items ++ l.drop (start + delCount)

/-- applyEdit models one iteration of the edit loop of formatDocument: a
single-line edit splices the text of that line between the start and end
characters; a multi-line edit replaces the spanned line range by the first
line prefix, the replacement lines, and the last line suffix, with the
single-replacement-line and several-replacement-lines shapes of the source.
Line reads are modelled total with the empty string default; the source
assumes the edit ranges address existing lines. -/
def applyEdit (lines : List String) (e : TextEdit) : List String :=
  let startLine := e.range.start.line
  let startChar := e.range.start.character
  let endLine := e.range.endPos.line
  let endChar := e.range.endPos.character
  if startLine = endLine then
    let cur := lines.getD startLine ""
    lines.set startLine (cur.take startChar ++ e.newText ++ cur.drop endChar)
  else
    let firstLinePre := (lines.getD startLine "").take startChar
    let lastLineSuf := (lines.getD endLine "").drop endChar
    let middleLines := e.newText.splitOn "\n"
    if middleLines.length = 1 then
      splice lines startLine (endLine - startLine + 1)
        [firstLinePre ++ middleLines.getD 0 "" ++ lastLineSuf]
    else
      splice lines startLine (endLine - startLine + 1)
        ([firstLinePre ++ middleLines.getD 0 ""] ++
          (middleLines.drop 1).dropLast ++
          [middleLines.getD (middleLines.length - 1) "" ++ lastLineSuf])

/-- applyEditsJs models the whole edit-application block of formatDocument:
sort descending, split the content into lines, fold the edits over the line
array, and join with newlines. -/
def applyEditsJs (content : String) (edits : List TextEdit) : String :=
  let sorted := sortEdits edits
  String.intercalate "\n" (sorted.foldl applyEdit (content.splitOn "\n"))

/- Stream framer (LspProcess.handleData). -/

/-- clHeader is the literal header text the framing regex requires before
the digits. -/
def clHeader : List Char :=
  ['C', 'o', 'n', 't', 'e', 'n', 't', '-', 'L', 'e', 'n', 'g', 't', 'h', ':', ' ']

/-- crlf2 is the blank-line separator terminating a header. -/
def crlf2 : List Char := ['\r', '\n', '\r', '\n']

/-- digitsToNat models parseInt base 10 on a digit string. -/
def digitsToNat (ds : List Char) : Nat :=
  ds.foldl (fun acc c => acc * 10 + (c.toNat - 48)) 0

/-- matchHeaderAt models the framing regex matching at the head of s: the
literal header text, then a maximal nonempty digit run, then the blank line.
On success it returns the parsed content length and the length of the whole
matched text, which handleData uses as the payload start offset. -/
def matchHeaderAt (s : List Char) : Option (Nat × Nat) :=
  if s.take 16 = clHeader then
    let rest := s.drop 16
    let ds := rest.takeWhile (fun c => c.isDigit)
    if ds = [] then none
    else if (rest.drop ds.length).take 4 = crlf2 then
      some (digitsToNat ds, 16 + ds.length + 4)
    else none
  else none

/-- findHeader models String.prototype.match with the framing regex: the
leftmost position where the header pattern matches, reported as the parsed
length and the matched text length, exactly the two quantities handleData
extracts from the match result. -/
def findHeader : List Char → Option (Nat × Nat)
  | [] => none
  | c :: rest =>
    match matchHeaderAt (c :: rest) with
    | some r => some r
    | none => findHeader rest

/-- processBufferGo is the extraction loop of handleData, fueled for
structural termination: while a header match exists and the buffer holds the
whole payload, emit the payload substring and continue on the remainder.
Every iteration consumes at least the matched header, so a fuel of the
buffer length is always sufficient. -/
def processBufferGo : Nat → List Char → List (List Char) × List Char
  | 0, buf => ([], buf)
  | fuel + 1, buf =>
    match findHeader buf with
    | none => ([], buf)
    | some (clen, hlen) =>
      if buf.length < hlen + clen then ([], buf)
      else
        let payload := (buf.drop hlen).take clen
        let r := processBufferGo fuel (buf.drop (hlen + clen))
        (payload :: r.1, r.2)

/-- processBuffer runs the handleData extraction loop on a buffer. The
buffer is the JavaScript string messageBuffer, one list element per string
unit, exactly the unit that messageBuffer.length and substring count. -/
def processBuffer (buf : List Char) : List (List Char) × List Char :=
  processBufferGo buf.length buf

/-- framerStep is the string-level part of one handleData call: append an
already-decoded chunk to the accumulated string buffer, run the extraction
loop, and append the emitted payloads to the output. The byte level,
including the chunk decoding performed by data.toString(), is
framerStepBytes below. -/
def framerStep (acc : List (List Char) × List Char) (chunk : List Char) :
    List (List Char) × List Char :=
  let r := processBuffer (acc.2 ++ chunk)
  (acc.1 ++ r.1, r.2)

/-- runFramer feeds a sequence of already-decoded string chunks through the
handleData loop starting from an empty buffer, returning all emitted
payloads and the final buffer. -/
def runFramer (chunks : List (List Char)) : List (List Char) × List Char :=
  chunks.foldl framerStep ([], [])

/-- FramedMsg is one wire message: the digit text of its length header and
its payload as decoded text. -/
structure FramedMsg where
  lenDigits : List Char
  payload : List Char
  deriving DecidableEq

/-- FramedMsg.WF is string-unit well-formedness: a nonempty digit run whose
parsed value equals the payload length in string units. This is the
hypothesis under which the string-level extraction loop is complete; the
wire protocol itself counts bytes (see FramedMsg.WFBytes), and the two
measures agree exactly on single-byte text. -/
def FramedMsg.WF (m : FramedMsg) : Prop :=
  m.lenDigits ≠ [] ∧ (∀ c ∈ m.lenDigits, c.isDigit = true) ∧
    digitsToNat m.lenDigits = m.payload.length

/-- FramedMsg.frame is the decoded text of one wire message. -/
def FramedMsg.frame (m : FramedMsg) : List Char :=
  clHeader ++ m.lenDigits ++ crlf2 ++ m.payload

/-- frames is the decoded text of a message sequence. -/
def frames (ms : List FramedMsg) : List Char :=
  (ms.map FramedMsg.frame).flatten

/- Byte level of the framer: the subprocess stream is bytes, decoded chunk
by chunk with data.toString(). -/

/-- replacementChar is U+FFFD, produced by the UTF-8 decoder for invalid or
chunk-truncated sequences. -/
def replacementChar : Char := '�'

/-- isUtf8Cont recognizes a UTF-8 continuation byte. -/
def isUtf8Cont (b : Nat) : Bool := 128 ≤ b && b < 192

/-- utf8DecodeGo models Buffer.toString for a utf8 stream chunk, fueled for
structural termination (every step consumes at least one byte, so a fuel of
the chunk length is always sufficient): ASCII bytes decode to themselves,
multi-byte sequences with their continuation bytes decode to one code
point, and an invalid lead, a broken continuation, or a sequence truncated
by the chunk boundary yields the replacement character, as happens when a
multi-byte character is split across data events. Overlong and surrogate
encodings are not specially rejected; the theorems below use only ASCII
bytes and well-formed two-byte sequences. -/
def utf8DecodeGo : Nat → List Nat → List Char
  | 0, _ => []
  | _ + 1, [] => []
  | fuel + 1, b :: rest =>
    if b < 128 then Char.ofNat b :: utf8DecodeGo fuel rest
    else if 194 ≤ b && b ≤ 223 then
      match rest with
      | b2 :: rest2 =>
        if isUtf8Cont b2 then
          Char.ofNat ((b - 192) * 64 + (b2 - 128)) :: utf8DecodeGo fuel rest2
        else replacementChar :: utf8DecodeGo fuel rest
      | [] => [replacementChar]
    else if 224 ≤ b && b ≤ 239 then
      match rest with
      | b2 :: b3 :: rest3 =>
        if isUtf8Cont b2 && isUtf8Cont b3 then
          Char.ofNat ((b - 224) * 4096 + (b2 - 128) * 64 + (b3 - 128)) ::
            utf8DecodeGo fuel rest3
        else replacementChar :: utf8DecodeGo fuel rest
      | _ => [replacementChar]
    else if 240 ≤ b && b ≤ 244 then
      match rest with
      | b2 :: b3 :: b4 :: rest4 =>
        if isUtf8Cont b2 && isUtf8Cont b3 && isUtf8Cont b4 then
          Char.ofNat ((b - 240) * 262144 + (b2 - 128) * 4096 +
            (b3 - 128) * 64 + (b4 - 128)) :: utf8DecodeGo fuel rest4
        else replacementChar :: utf8DecodeGo fuel rest
      | _ => [replacementChar]
    else replacementChar :: utf8DecodeGo fuel rest

/-- utf8Decode runs the decoder on a whole chunk. -/
def utf8Decode (l : List Nat) : List Char :=
  utf8DecodeGo l.length l

/-- utf8EncodeChar is the UTF-8 encoding of one code point, the byte
measure Buffer.byteLength uses and the base wire format prescribes for the
Content-Length value. -/
def utf8EncodeChar (c : Char) : List Nat :=
  let n := c.toNat
  if n < 128 then [n]
  else if n < 2048 then [192 + n / 64, 128 + n % 64]
  else if n < 65536 then [224 + n / 4096, 128 + (n / 64) % 64, 128 + n % 64]
  else [240 + n / 262144, 128 + (n / 4096) % 64, 128 + (n / 64) % 64, 128 + n % 64]

/-- utf8Encode is the UTF-8 byte encoding of a text. -/
def utf8Encode (s : List Char) : List Nat :=
  (s.map utf8EncodeChar).flatten

/-- FramedMsg.WFBytes is wire-level well-formedness: a nonempty digit run
whose parsed value equals the payload length in UTF-8 bytes, the count the
base protocol prescribes and the count the same source uses on its send
path with Buffer.byteLength. -/
def FramedMsg.WFBytes (m : FramedMsg) : Prop :=
  m.lenDigits ≠ [] ∧ (∀ c ∈ m.lenDigits, c.isDigit = true) ∧
    digitsToNat m.lenDigits = (utf8Encode m.payload).length

/-- byteFrames is the wire byte stream of a message sequence. -/
def byteFrames (ms : List FramedMsg) : List Nat :=
  utf8Encode (frames ms)

/-- framerStepBytes models one full handleData call at the byte level: the
incoming chunk bytes are decoded by data.toString() chunk by chunk and
appended to the string buffer, then the extraction loop runs. -/
def framerStepBytes (acc : List (List Char) × List Char) (chunk : List Nat) :
    List (List Char) × List Char :=
  framerStep acc (utf8Decode chunk)

/-- runFramerBytes feeds a sequence of byte chunks through handleData
starting from an empty buffer. -/
def runFramerBytes (chunks : List (List Nat)) : List (List Char) × List Char :=
  chunks.foldl framerStepBytes ([], [])

/-- utf8DemoMsgs is a byte-well-formed two-message sequence whose first
payload contains a two-byte character: the JSON text of a one-letter
string, 3 string units but 4 bytes, so its Content-Length reads 4. -/
def utf8DemoMsgs : List FramedMsg :=
  [{ lenDigits := ['4'], payload := ['"', 'é', '"'] },
   { lenDigits := ['1'], payload := ['7'] }]

/- Trace model for document version tracking. -/

/-- ClientOp is one top-level operation of a client trace: ensureDocumentOpen
for a path, a formatDocument call (recording whether the formatting request
returned edits, and whether the subprocess died during the awaited formatting
request before the didChange push), or a subprocess exit between operations. -/
inductive ClientOp where
  | ensureOpen (path : String) : ClientOp
  | format (path : String) (hasEdits : Bool) (exitBeforePush : Bool) : ClientOp
  | procExit : ClientOp

/-- stepOp executes one trace operation, following the control flow of the
source: formatDocument first ensures the document is open (aborting on a
throw), then, when the formatting produced edits, pushes the didChange
notification. -/
def stepOp (s : ClientState) (op : ClientOp) : ClientState × List Effect :=
  match op with
  | ClientOp.ensureOpen p =>
    match ensureDocumentOpen s p with
    | Except.error _ => (s, [])
    | Except.ok r => r
  | ClientOp.format p hasEdits exitBeforePush =>
    match ensureDocumentOpen s p with
    | Except.error _ => (s, [])
    | Except.ok (s1, e1) =>
      let r2 := if exitBeforePush then handleExit s1 else (s1, [])
      if hasEdits then
        let r3 := formatPush r2.1 p
        (r3.1, e1 ++ r2.2 ++ r3.2)
      else (r2.1, e1 ++ r2.2)
  | ClientOp.procExit => handleExit s

/-- runOps executes a trace of operations, accumulating all effects. -/
def runOps (s : ClientState) : List ClientOp → ClientState × List Effect
  | [] => (s, [])
  | op :: ops =>
    let r1 := stepOp s op
    let r2 := runOps r1.1 ops
    (r2.1, r1.2 ++ r2.2)

/-- readyInit is a freshly initialized client: process live, handshake done,
id 1 consumed by the initialize request, no documents open. -/
def readyInit : ClientState :=
  { processAlive := true, isInitialized := true, requestIdCounter := 2,
    pendingRequests := [], openDocuments := [], diagnostics := [] }

/-- versionOf extracts the document version carried by a write effect for
path p, if any. -/
def versionOf (p : String) (e : Effect) : Option Nat :=
  match e with
  | Effect.write (Outgoing.notification _ (NotifyParams.didOpenP q v)) =>
    if q = p then some v else none
  | Effect.write (Outgoing.notification _ (NotifyParams.didChangeP q v)) =>
    if q = p then some v else none
  | _ => none

/-- writtenVersions lists, in order, the version numbers written to the
subprocess for path p. -/
def writtenVersions (p : String) (log : List Effect) : List Nat :=
  log.filterMap (versionOf p)

/- Demo states for the closed witness and counterexample theorems. -/

/-- exitDemoState is a ready client with two requests pending. -/
def exitDemoState : ClientState :=
  { processAlive := true, isInitialized := true, requestIdCounter := 3,
    pendingRequests := [1, 2], openDocuments := [], diagnostics := [] }

/-- closeDemoState is a live but never-initialized client. -/
def closeDemoState : ClientState :=
  { processAlive := true, isInitialized := false, requestIdCounter := 1,
    pendingRequests := [], openDocuments := [], diagnostics := [] }

/-- demoMsgs is a concrete two-message wire sequence. -/
def demoMsgs : List FramedMsg :=
  [{ lenDigits := ['2'], payload := ['a', 'b'] },
   { lenDigits := ['1'], payload := ['z'] }]

/-- Inv is the inductive invariant coupling the stored document versions with
the versions already written to the subprocess: for every path the written
versions form the gapless range from 1, and while the client is initialized
the stored version equals the last written one. -/
def Inv (s : ClientState) (log : List Effect) : Prop :=
  (s.isInitialized = true → s.processAlive = true) ∧
  ∀ p, ∃ k, writtenVersions p log = List.range' 1 k ∧
    (s.isInitialized = true →
      s.openDocuments.lookup p = if k = 0 then none else some k)

/- Helper lemmas about the association-list operations. -/

theorem lookup_setAssoc_self {β : Type} (m : List (String × β)) (k : String) (v : β) :
    (setAssoc m k v).lookup k = some v := by
  induction m with
  | nil => simp [setAssoc]
  | cons kv rest ih =>
    obtain ⟨k', v'⟩ := kv
    by_cases h : k' = k
    · subst h
      simp [setAssoc]
    · have hb : (k == k') = false := beq_eq_false_iff_ne.2 fun e => h e.symm
      simp [setAssoc, h, List.lookup, hb, ih]

theorem lookup_setAssoc_ne {β : Type} (m : List (String × β)) (k q : String) (v : β)
    (h : q ≠ k) : (setAssoc m k v).lookup q = m.lookup q := by
  have hb : (q == k) = false := beq_eq_false_iff_ne.2 h
  induction m with
  | nil => simp [setAssoc, List.lookup, hb]
  | cons kv rest ih =>
    obtain ⟨k', v'⟩ := kv
    by_cases hk : k' = k
    · subst hk
      simp [setAssoc, List.lookup, hb]
    · simp [setAssoc, hk, List.lookup, ih]

/-- C1: a subprocess exit with two requests pending does not fail them: the
exit handler leaves the pending map untouched and emits no rejection at all,
contradicting the claim that every pending request fails immediately with an
unavailable condition. -/
theorem claim1_counterexample :
    (handleExit exitDemoState).1.pendingRequests = [1, 2] ∧
    (handleExit exitDemoState).2 = [Effect.log "exited"] :=
  ⟨rfl, rfl⟩

/-- C1 amended: when the subprocess terminates, the exit handler only clears
the initialized flag and the process handle; pending requests stay pending
and each one fails with its own Timeout condition only when its deadline
later expires. -/
theorem claim1_amended (s : ClientState) (id : Nat) (hid : id ∈ s.pendingRequests) :
    (handleExit s).1.pendingRequests = s.pendingRequests ∧
    (handleExit s).2 = [Effect.log "exited"] ∧
    id ∈ (handleExit s).1.pendingRequests ∧
    (fireTimeout (handleExit s).1 id).2 = [Effect.reject id (LspError.timeoutErr id)] :=
  ⟨rfl, rfl, hid, rfl⟩

/-- Witness instantiating claim1_amended at a client with requests 1 and 2
pending. -/
theorem claim1_amended_witness :
    (handleExit exitDemoState).1.pendingRequests = exitDemoState.pendingRequests ∧
    (handleExit exitDemoState).2 = [Effect.log "exited"] ∧
    1 ∈ (handleExit exitDemoState).1.pendingRequests ∧
    (fireTimeout (handleExit exitDemoState).1 1).2 =
      [Effect.reject 1 (LspError.timeoutErr 1)] :=
  claim1_amended exitDemoState 1 (by decide)

/-- C5: when a request deadline fires, the pending entry is removed and the
promise is rejected with the Timeout condition; a response with that id
arriving afterwards matches no pending entry and no dispatch branch, so it is
only logged: the state is unchanged, nothing is resolved or rejected, and
nothing is written. -/
theorem claim5_timeout_then_late (s : ClientState) (id : Nat) (m : Message)
    (hpend : id ∈ s.pendingRequests) (hnd : s.pendingRequests.Nodup)
    (hmid : m.id = some id) (hmeth : m.method = none) :
    (fireTimeout s id).2 = [Effect.reject id (LspError.timeoutErr id)] ∧
    (fireTimeout s id).1.pendingRequests = s.pendingRequests.erase id ∧
    id ∉ (fireTimeout s id).1.pendingRequests ∧
    handleMessage (fireTimeout s id).1 m =
      ((fireTimeout s id).1, [Effect.log "unhandled message"]) := by
  have hnotmem : id ∉ s.pendingRequests.erase id := by
    intro hmem
    exact absurd ((List.Nodup.mem_erase_iff hnd).1 hmem).1 (by simp)
  refine ⟨rfl, rfl, hnotmem, ?_⟩
  simp only [handleMessage, hmid, fireTimeout]
  rw [if_neg hnotmem]
  simp only [handleNonResponse, hmeth]

/-- Witness instantiating claim5_timeout_then_late: request 1 times out on
the demo client, then the late response with id 1 is discarded. -/
theorem claim5_witness :
    (fireTimeout exitDemoState 1).2 = [Effect.reject 1 (LspError.timeoutErr 1)] ∧
    (fireTimeout exitDemoState 1).1.pendingRequests =
      exitDemoState.pendingRequests.erase 1 ∧
    1 ∉ (fireTimeout exitDemoState 1).1.pendingRequests ∧
    handleMessage (fireTimeout exitDemoState 1).1
        { id := some 1, method := none, isError := false, uri := "", diags := [] } =
      ((fireTimeout exitDemoState 1).1, [Effect.log "unhandled message"]) :=
  claim5_timeout_then_late exitDemoState 1
    { id := some 1, method := none, isError := false, uri := "", diags := [] }
    (by decide) (by decide) rfl rfl

/-- C6: any request other than the initialize handshake issued while the
process handle is absent or initialization has not completed is rejected
immediately with the not-ready condition; the state is unchanged, so nothing
is queued and nothing is written. -/
theorem claim6_not_ready (s : ClientState) (method : String)
    (hm : method ≠ "initialize")
    (hnr : s.processAlive = false ∨ s.isInitialized = false) :
    sendRequest s method = (s, [Effect.rejectCall (LspError.notReady method)]) := by
  unfold sendRequest
  rw [if_pos]
  rcases hnr with h | h
  · exact Or.inl h
  · exact Or.inr ⟨h, hm⟩

/-- Witness instantiating claim6_not_ready at a live but uninitialized
client issuing a completion request. -/
theorem claim6_witness :
    sendRequest closeDemoState "textDocument/completion" =
      (closeDemoState,
        [Effect.rejectCall (LspError.notReady "textDocument/completion")]) :=
  claim6_not_ready closeDemoState "textDocument/completion" (by decide) (Or.inr rfl)

/-- C10: any notification other than the initialized handshake issued while
the process handle is absent or the client is uninitialized is silently
dropped: sendNotification logs, writes nothing, raises nothing and leaves
the state unchanged. -/
theorem claim10_notification_dropped (s : ClientState) (method : String)
    (params : NotifyParams) (hm : method ≠ "initialized")
    (hnr : s.processAlive = false ∨ s.isInitialized = false) :
    sendNotification s method params = (s, [Effect.log "notification dropped"]) := by
  unfold sendNotification
  rw [if_pos]
  rcases hnr with h | h
  · exact Or.inl h
  · exact Or.inr ⟨h, hm⟩

/-- Witness instantiating claim10_notification_dropped at a live but
uninitialized client sending a didOpen notification. -/
theorem claim10_witness :
    sendNotification closeDemoState "textDocument/didOpen"
        (NotifyParams.didOpenP "a.ts" 1) =
      (closeDemoState, [Effect.log "notification dropped"]) :=
  claim10_notification_dropped closeDemoState "textDocument/didOpen"
    (NotifyParams.didOpenP "a.ts" 1) (by decide) (Or.inr rfl)

/-- C4: closing a live but never-initialized client kills the subprocess but
writes nothing to it: the exit notification call is silently dropped by the
not-ready guard of sendNotification, contradicting the claim that an exit
notification is sent in every case. -/
theorem claim4_counterexample :
    (close closeDemoState).2.filter isWrite = [] ∧
    Effect.kill ∈ (close closeDemoState).2 := by
  decide

/-- C4 amended: for a live subprocess, close always terminates it forcefully
and clears the process handle; the shutdown request and the exit
notification are actually written only when the client is initialized, while
for an uninitialized client the exit notification is dropped by the
not-ready guard and only the kill happens. -/
theorem claim4_amended (s : ClientState) (halive : s.processAlive = true) :
    (close s).1.processAlive = false ∧
    Effect.kill ∈ (close s).2 ∧
    (s.isInitialized = true →
      (close s).2 =
        [Effect.write (Outgoing.request s.requestIdCounter "shutdown"),
         Effect.write (Outgoing.notification "exit" NotifyParams.empty),
         Effect.kill]) ∧
    (s.isInitialized = false →
      (close s).2 = [Effect.log "notification dropped", Effect.kill]) := by
  by_cases hinit : s.isInitialized = true
  · refine ⟨?_, ?_, fun _ => ?_, fun hfalse => absurd hfalse (by simp [hinit])⟩ <;>
    · unfold close
      simp [sendRequest, sendNotification, halive, hinit]
  · have hif : s.isInitialized = false := by
      revert hinit
      cases s.isInitialized <;> simp
    refine ⟨?_, ?_, fun htrue => absurd htrue (by simp [hif]), fun _ => ?_⟩ <;>
    · unfold close
      simp [sendNotification, halive, hif]

/-- Witness instantiating claim4_amended at a ready client: the kill effect
is present. -/
theorem claim4_amended_witness : Effect.kill ∈ (close exitDemoState).2 :=
  (claim4_amended exitDemoState rfl).2.1

/-- C8: on a ready client, the first ensureDocumentOpen for a fresh path
writes exactly one didOpen notification with version 1 and records version
1; the second call for the same path is a no-op that writes nothing and
leaves the state unchanged, with the stored version still 1. -/
theorem claim8_ensureOpen_idempotent (s : ClientState) (p : String)
    (halive : s.processAlive = true) (hinit : s.isInitialized = true)
    (hnew : s.openDocuments.lookup p = none) :
    ∃ s1 : ClientState,
      ensureDocumentOpen s p =
        Except.ok (s1,
          [Effect.write
            (Outgoing.notification "textDocument/didOpen" (NotifyParams.didOpenP p 1))]) ∧
      ensureDocumentOpen s1 p = Except.ok (s1, []) ∧
      s1.openDocuments.lookup p = some 1 := by
  refine ⟨{ s with openDocuments := setAssoc s.openDocuments p 1 }, ?_, ?_, ?_⟩
  · unfold ensureDocumentOpen
    rw [if_pos hinit, hnew]
    unfold sendNotification
    rw [if_neg (by simp [halive, hinit])]
  · unfold ensureDocumentOpen
    rw [if_pos hinit, lookup_setAssoc_self]
  · exact lookup_setAssoc_self s.openDocuments p 1

/-- Witness instantiating claim8_ensureOpen_idempotent on a fresh ready
client opening one path. -/
theorem claim8_witness :
    ∃ s1 : ClientState,
      ensureDocumentOpen readyInit "a.ts" =
        Except.ok (s1,
          [Effect.write
            (Outgoing.notification "textDocument/didOpen"
              (NotifyParams.didOpenP "a.ts" 1))]) ∧
      ensureDocumentOpen s1 "a.ts" = Except.ok (s1, []) ∧
      s1.openDocuments.lookup "a.ts" = some 1 :=
  claim8_ensureOpen_idempotent readyInit "a.ts" rfl rfl rfl

/-- C3: the router maps the vue extension to the unconfigured vue instance
key, so selecting a client for a vue file yields none and the public
operations throw, contradicting the claim that an unrecognized or
unconfigured extension never causes a failure. -/
theorem claim3_counterexample :
    getLspInstanceForFile "a.vue" = none ∧
    selectClientOrFail "a.vue" = Except.error (LspError.noLspConfigured "a.vue") :=
  ⟨rfl, rfl⟩

/-- C3 amended: client selection is a pure function of the file extension
that yields the configured typescript client for every extension except
vue, including unrecognized ones via the default fallback; for the vue
extension it yields no client, and the public operations fail for vue paths
with the no-LSP-configured error. -/
theorem claim3_amended (p : String) :
    getLspInstanceForFile p =
      if extname p = ".vue" then none else some "typescript" := by
  unfold getLspInstanceForFile
  by_cases h : extname p = ".vue"
  · rw [if_pos h, if_pos h]
    rfl
  · rw [if_neg h, if_neg h]
    rw [ite_self]
    rfl

/-- C7: for two non-overlapping edits with distinct start positions, the
edit applier yields the same result whichever order they are supplied in,
and that result is the descending-position application, because the
comparator sort normalizes both inputs to the same descending sequence. -/
theorem claim7_edit_order (content : String) (e1 e2 : TextEdit)
    (horder : posLtStrict e1.range.start e2.range.start)
    (hsep : posLe e1.range.endPos e2.range.start) :
    applyEditsJs content [e1, e2] = applyEditsJs content [e2, e1] ∧
    applyEditsJs content [e2, e1] =
      String.intercalate "\n" (applyEdit (applyEdit (content.splitOn "\n") e2) e1) := by
  unfold posLtStrict at horder
  unfold posLe at hsep
  have hb12 : editBefore e1 e2 = false := by
    simp only [editBefore, Bool.or_eq_false_iff, Bool.and_eq_false_iff,
      decide_eq_false_iff_not, not_lt, beq_eq_false_iff_ne]
    omega
  have hb21 : editBefore e2 e1 = true := by
    simp only [editBefore, Bool.or_eq_true, Bool.and_eq_true,
      decide_eq_true_eq, beq_iff_eq]
    omega
  have hs1 : sortEdits [e1, e2] = [e2, e1] := by
    simp [sortEdits, insertEdit, hb12]
  have hs2 : sortEdits [e2, e1] = [e2, e1] := by
    simp [sortEdits, insertEdit, hb21]
  constructor
  · unfold applyEditsJs
    rw [hs1, hs2]
  · unfold applyEditsJs
    rw [hs2]
    rfl

/-- Witness instantiating claim7_edit_order with two single-line edits on
one line of a three-character document. -/
theorem claim7_witness :
    applyEditsJs "abc"
        [{ range := { start := { line := 0, character := 0 },
                      endPos := { line := 0, character := 1 } }, newText := "X" },
         { range := { start := { line := 0, character := 2 },
                      endPos := { line := 0, character := 3 } }, newText := "Y" }] =
      applyEditsJs "abc"
        [{ range := { start := { line := 0, character := 2 },
                      endPos := { line := 0, character := 3 } }, newText := "Y" },
         { range := { start := { line := 0, character := 0 },
                      endPos := { line := 0, character := 1 } }, newText := "X" }] ∧
    applyEditsJs "abc"
        [{ range := { start := { line := 0, character := 2 },
                      endPos := { line := 0, character := 3 } }, newText := "Y" },
         { range := { start := { line := 0, character := 0 },
                      endPos := { line := 0, character := 1 } }, newText := "X" }] =
      String.intercalate "\n"
        (applyEdit
          (applyEdit (("abc" : String).splitOn "\n")
            { range := { start := { line := 0, character := 2 },
                         endPos := { line := 0, character := 3 } }, newText := "Y" })
          { range := { start := { line := 0, character := 0 },
                       endPos := { line := 0, character := 1 } }, newText := "X" }) :=
  claim7_edit_order "abc"
    { range := { start := { line := 0, character := 0 },
                 endPos := { line := 0, character := 1 } }, newText := "X" }
    { range := { start := { line := 0, character := 2 },
                 endPos := { line := 0, character := 3 } }, newText := "Y" }
    (Or.inr ⟨rfl, by decide⟩) (Or.inr ⟨rfl, by decide⟩)

/- Helper lemmas for the document-version invariant. -/

theorem writtenVersions_append (p : String) (a b : List Effect) :
    writtenVersions p (a ++ b) = writtenVersions p a ++ writtenVersions p b := by
  simp [writtenVersions]

theorem sendNotification_fst (s : ClientState) (method : String) (params : NotifyParams) :
    (sendNotification s method params).1 = s := by
  unfold sendNotification
  split <;> rfl

theorem inv_ensureOpen {s : ClientState} {log : List Effect} {p : String}
    {s' : ClientState} {effs : List Effect} (h : Inv s log)
    (he : ensureDocumentOpen s p = Except.ok (s', effs)) :
    Inv s' (log ++ effs) ∧ (s'.openDocuments.lookup p).isSome = true ∧
    s'.isInitialized = s.isInitialized ∧ s'.processAlive = s.processAlive := by
  by_cases hinit : s.isInitialized = true
  case neg =>
    unfold ensureDocumentOpen at he
    rw [if_neg hinit] at he
    exact Except.noConfusion he
  case pos =>
    have halive : s.processAlive = true := h.1 hinit
    unfold ensureDocumentOpen at he
    rw [if_pos hinit] at he
    cases hl : s.openDocuments.lookup p with
    | some v =>
      rw [hl] at he
      have h1 : (s, ([] : List Effect)) = (s', effs) := Except.ok.inj he
      injection h1 with hs heff
      subst hs
      subst heff
      refine ⟨by simpa using h, ?_, rfl, rfl⟩
      rw [hl]
      rfl
    | none =>
      rw [hl] at he
      have hsend : sendNotification s "textDocument/didOpen" (NotifyParams.didOpenP p 1) =
          (s, [Effect.write
            (Outgoing.notification "textDocument/didOpen" (NotifyParams.didOpenP p 1))]) := by
        unfold sendNotification
        rw [if_neg (by simp [halive, hinit])]
      simp only [hsend] at he
      have h1 := Except.ok.inj he
      injection h1 with hs heff
      subst hs
      subst heff
      refine ⟨⟨fun _ => halive, ?_⟩, by simp [lookup_setAssoc_self], rfl, rfl⟩
      intro q
      obtain ⟨k, hk1, hk2⟩ := h.2 q
      by_cases hq : q = p
      · subst hq
        have hk0 : k = 0 := by
          have hx := hk2 hinit
          rw [hl] at hx
          rcases k with _ | k'
          · rfl
          · simp at hx
        subst hk0
        refine ⟨1, ?_, fun _ => by simp [lookup_setAssoc_self]⟩
        rw [writtenVersions_append, hk1]
        simp [writtenVersions, versionOf, List.range']
      · refine ⟨k, ?_, ?_⟩
        · rw [writtenVersions_append, hk1]
          simp [writtenVersions, versionOf, Ne.symm hq]
        · intro hi
          rw [lookup_setAssoc_ne _ _ _ _ hq]
          exact hk2 hi

theorem inv_handleExit {s : ClientState} {log : List Effect} (h : Inv s log) :
    Inv (handleExit s).1 (log ++ (handleExit s).2) := by
  refine ⟨fun hi => absurd hi (by simp [handleExit]), ?_⟩
  intro q
  obtain ⟨k, hk1, _⟩ := h.2 q
  refine ⟨k, ?_, fun hi => absurd hi (by simp [handleExit])⟩
  rw [writtenVersions_append, hk1]
  simp [handleExit, writtenVersions, versionOf]

theorem inv_formatPush {s : ClientState} {log : List Effect} (p : String) (h : Inv s log)
    (hopen : s.isInitialized = true → (s.openDocuments.lookup p).isSome = true) :
    Inv (formatPush s p).1 (log ++ (formatPush s p).2) := by
  by_cases hinit : s.isInitialized = true
  case pos =>
    have halive := h.1 hinit
    obtain ⟨k, hk1, hk2⟩ := h.2 p
    have hlk := hk2 hinit
    rcases k with _ | k'
    · exfalso
      have hopn := hopen hinit
      rw [if_pos rfl] at hlk
      rw [hlk] at hopn
      simp at hopn
    · have hlk' : s.openDocuments.lookup p = some (k' + 1) := by simpa using hlk
      have hfp : formatPush s p =
          ({ s with openDocuments := setAssoc s.openDocuments p (k' + 2) },
           [Effect.write (Outgoing.notification "textDocument/didChange"
             (NotifyParams.didChangeP p (k' + 2)))]) := by
        unfold formatPush
        rw [hlk']
        simp [sendNotification, halive, hinit]
      rw [hfp]
      refine ⟨fun _ => halive, ?_⟩
      intro q
      by_cases hq : p = q
      · subst hq
        refine ⟨k' + 2, ?_, fun _ => by simp [lookup_setAssoc_self]⟩
        have hone : writtenVersions p
            [Effect.write (Outgoing.notification "textDocument/didChange"
              (NotifyParams.didChangeP p (k' + 2)))] = [k' + 2] := by
          simp [writtenVersions, versionOf]
        have harith : k' + 2 = 1 + (k' + 1) := by omega
        rw [writtenVersions_append, hk1, hone, harith, ← List.range'_1_concat]
        congr 1
      · obtain ⟨kq, hq1, hq2⟩ := h.2 q
        refine ⟨kq, ?_, ?_⟩
        · rw [writtenVersions_append, hq1]
          simp [writtenVersions, versionOf, hq]
        · intro hi
          rw [lookup_setAssoc_ne _ _ _ _ (fun e => hq e.symm)]
          exact hq2 hi
  case neg =>
    have hif : s.isInitialized = false := by
      revert hinit
      cases s.isInitialized <;> simp
    have hfp2 : (formatPush s p).2 = [Effect.log "notification dropped"] := by
      unfold formatPush
      simp [sendNotification, hif]
    have hfpinit : (formatPush s p).1.isInitialized = false := by
      unfold formatPush
      rw [sendNotification_fst]
      exact hif
    refine ⟨fun hi => absurd hi (by simp [hfpinit]), ?_⟩
    intro q
    obtain ⟨k, hk1, _⟩ := h.2 q
    refine ⟨k, ?_, fun hi => absurd hi (by simp [hfpinit])⟩
    rw [hfp2, writtenVersions_append, hk1]
    simp [writtenVersions, versionOf]

theorem inv_stepOp {s : ClientState} {log : List Effect} (op : ClientOp) (h : Inv s log) :
    Inv (stepOp s op).1 (log ++ (stepOp s op).2) := by
  cases op with
  | ensureOpen p =>
    cases he : ensureDocumentOpen s p with
    | error e =>
      simp only [stepOp, he]
      simpa using h
    | ok r =>
      obtain ⟨s', effs⟩ := r
      simp only [stepOp, he]
      exact (inv_ensureOpen h he).1
  | format p hasEdits exitBefore =>
    cases he : ensureDocumentOpen s p with
    | error e =>
      simp only [stepOp, he]
      simpa using h
    | ok r =>
      obtain ⟨s1, e1⟩ := r
      obtain ⟨h1, hopen1, _, _⟩ := inv_ensureOpen h he
      simp only [stepOp, he]
      cases exitBefore with
      | false =>
        cases hasEdits with
        | false => simpa using h1
        | true =>
          have h3 := inv_formatPush p h1 (fun _ => hopen1)
          simpa [List.append_assoc] using h3
      | true =>
        have h2 := inv_handleExit h1
        cases hasEdits with
        | false => simpa [List.append_assoc] using h2
        | true =>
          have h3 := inv_formatPush p h2 (fun hi => absurd hi (by simp [handleExit]))
          simpa [List.append_assoc] using h3
  | procExit =>
    simp only [stepOp]
    exact inv_handleExit h

theorem inv_runOps (ops : List ClientOp) :
    ∀ s log, Inv s log → Inv (runOps s ops).1 (log ++ (runOps s ops).2) := by
  induction ops with
  | nil =>
    intro s log h
    simpa [runOps] using h
  | cons op ops ih =>
    intro s log h
    have h1 := inv_stepOp op h
    have h2 := ih (stepOp s op).1 (log ++ (stepOp s op).2) h1
    simp only [runOps]
    simpa [List.append_assoc] using h2

/-- C9: along every operation trace of a freshly initialized client, the
sequence of document versions written to the subprocess for any path is
exactly the gapless range 1, 2, ..., k: version 1 on open, incremented by
exactly one on each didChange push, monotonic with no gaps for the whole
client lifetime. -/
theorem claim9_versions_gapless (ops : List ClientOp) (p : String) :
    ∃ k, writtenVersions p (runOps readyInit ops).2 = List.range' 1 k := by
  have h0 : Inv readyInit [] := ⟨fun _ => rfl, fun _ => ⟨0, rfl, fun _ => rfl⟩⟩
  have h := inv_runOps ops readyInit [] h0
  obtain ⟨k, hk, _⟩ := h.2 p
  exact ⟨k, by simpa using hk⟩

/- Stream framer lemmas. -/

theorem findHeader_cons_match {c : Char} {l : List Char} {r : Nat × Nat}
    (h : matchHeaderAt (c :: l) = some r) : findHeader (c :: l) = some r := by
  unfold findHeader
  rw [h]

theorem takeWhile_digits (ds t : List Char) (h : ∀ c ∈ ds, c.isDigit = true) :
    (ds ++ '\r' :: t).takeWhile (fun c => c.isDigit) = ds := by
  induction ds with
  | nil => rfl
  | cons d ds ih =>
    have hd : d.isDigit = true := h d (by simp)
    have ih' := ih fun c hc => h c (by simp [hc])
    simp [List.takeWhile_cons, hd, ih']

theorem matchHeaderAt_full (ds t : List Char) (h1 : ds ≠ [])
    (h2 : ∀ c ∈ ds, c.isDigit = true) :
    matchHeaderAt (clHeader ++ (ds ++ (crlf2 ++ t))) =
      some (digitsToNat ds, 16 + ds.length + 4) := by
  have hcl : clHeader.length = 16 := rfl
  simp only [matchHeaderAt]
  rw [List.take_left' hcl, if_pos rfl, List.drop_left' hcl]
  have hcr : ds ++ (crlf2 ++ t) = ds ++ '\r' :: ('\n' :: '\r' :: '\n' :: t) := rfl
  rw [hcr, takeWhile_digits ds _ h2, if_neg h1, List.drop_left]
  rfl

theorem findHeader_full (ds t : List Char) (h1 : ds ≠ [])
    (h2 : ∀ c ∈ ds, c.isDigit = true) :
    findHeader (clHeader ++ (ds ++ (crlf2 ++ t))) =
      some (digitsToNat ds, 16 + ds.length + 4) := by
  have hm := matchHeaderAt_full ds t h1 h2
  have hsh : clHeader ++ (ds ++ (crlf2 ++ t)) =
      'C' :: (['o', 'n', 't', 'e', 'n', 't', '-', 'L', 'e', 'n', 'g', 't', 'h', ':', ' '] ++
        (ds ++ (crlf2 ++ t))) := rfl
  rw [hsh] at hm ⊢
  exact findHeader_cons_match hm

theorem matchHeaderAt_pos {s : List Char} {r : Nat × Nat}
    (h : matchHeaderAt s = some r) : 0 < r.2 := by
  simp only [matchHeaderAt] at h
  by_cases h16 : s.take 16 = clHeader
  · rw [if_pos h16] at h
    by_cases hds : (s.drop 16).takeWhile (fun c => c.isDigit) = []
    · rw [if_pos hds] at h
      exact Option.noConfusion h
    · rw [if_neg hds] at h
      by_cases hc4 : ((s.drop 16).drop
          ((s.drop 16).takeWhile (fun c => c.isDigit)).length).take 4 = crlf2
      · rw [if_pos hc4] at h
        have hinj := Option.some.inj h
        rw [← hinj]
        simp
      · rw [if_neg hc4] at h
        exact Option.noConfusion h
  · rw [if_neg h16] at h
    exact Option.noConfusion h

theorem findHeader_pos : ∀ {s : List Char} {r : Nat × Nat},
    findHeader s = some r → 0 < r.2 := by
  intro s
  induction s with
  | nil => intro r h; exact Option.noConfusion h
  | cons c l ih =>
    intro r h
    unfold findHeader at h
    cases hm : matchHeaderAt (c :: l) with
    | some r' =>
      rw [hm] at h
      have hinj : r' = r := Option.some.inj h
      exact hinj ▸ matchHeaderAt_pos hm
    | none =>
      rw [hm] at h
      exact ih h

theorem processBufferGo_congr : ∀ (f1 f2 : Nat) (buf : List Char),
    buf.length ≤ f1 → buf.length ≤ f2 →
    processBufferGo f1 buf = processBufferGo f2 buf := by
  intro f1
  induction f1 with
  | zero =>
    intro f2 buf h1 _
    have hb : buf = [] := List.eq_nil_of_length_eq_zero (Nat.le_zero.1 h1)
    subst hb
    cases f2 with
    | zero => rfl
    | succ f2 => rfl
  | succ f1 ih =>
    intro f2 buf h1 h2
    cases f2 with
    | zero =>
      have hb : buf = [] := List.eq_nil_of_length_eq_zero (Nat.le_zero.1 h2)
      subst hb
      rfl
    | succ f2 =>
      simp only [processBufferGo]
      cases hf : findHeader buf with
      | none => rfl
      | some r =>
        obtain ⟨clen, hlen⟩ := r
        have hpos : 0 < hlen := findHeader_pos hf
        by_cases hl : buf.length < hlen + clen
        · simp only [if_pos hl]
        · simp only [if_neg hl]
          have hlen2 : (buf.drop (hlen + clen)).length ≤ f1 := by
            rw [List.length_drop]
            omega
          have hlen3 : (buf.drop (hlen + clen)).length ≤ f2 := by
            rw [List.length_drop]
            omega
          rw [ih f2 (buf.drop (hlen + clen)) hlen2 hlen3]

theorem processBuffer_none {buf : List Char} (h : findHeader buf = none) :
    processBuffer buf = ([], buf) := by
  unfold processBuffer
  cases buf with
  | nil => rfl
  | cons c l =>
    rw [List.length_cons]
    simp only [processBufferGo, h]

theorem processBuffer_short {buf : List Char} {clen hlen : Nat}
    (h : findHeader buf = some (clen, hlen)) (hl : buf.length < hlen + clen) :
    processBuffer buf = ([], buf) := by
  cases buf with
  | nil => rfl
  | cons c l =>
    unfold processBuffer
    rw [List.length_cons]
    simp only [processBufferGo, h]
    rw [if_pos hl]

theorem processBuffer_step {buf : List Char} {clen hlen : Nat}
    (h : findHeader buf = some (clen, hlen)) (hl : ¬ buf.length < hlen + clen) :
    processBuffer buf =
      ((buf.drop hlen).take clen :: (processBuffer (buf.drop (hlen + clen))).1,
       (processBuffer (buf.drop (hlen + clen))).2) := by
  cases buf with
  | nil => exact Option.noConfusion h
  | cons c l =>
    unfold processBuffer
    rw [List.length_cons]
    simp only [processBufferGo, h]
    rw [if_neg hl]
    have hpos : 0 < hlen := findHeader_pos h
    have hle : ((c :: l).drop (hlen + clen)).length ≤ l.length := by
      rw [List.length_drop, List.length_cons]
      omega
    rw [processBufferGo_congr l.length ((c :: l).drop (hlen + clen)).length
      ((c :: l).drop (hlen + clen)) hle (Nat.le_refl _)]

theorem header_shape (m : FramedMsg) (t : List Char) :
    m.frame ++ t = clHeader ++ (m.lenDigits ++ (crlf2 ++ (m.payload ++ t))) := by
  simp [FramedMsg.frame, List.append_assoc]

theorem frame_length (m : FramedMsg) :
    m.frame.length = 16 + m.lenDigits.length + 4 + m.payload.length := by
  simp only [FramedMsg.frame, List.length_append]
  have h1 : clHeader.length = 16 := rfl
  have h2 : crlf2.length = 4 := rfl
  omega

theorem findHeader_frame (m : FramedMsg) (hm : m.WF) (t : List Char) :
    findHeader (m.frame ++ t) =
      some (m.payload.length, 16 + m.lenDigits.length + 4) := by
  rw [header_shape]
  have h := findHeader_full m.lenDigits (m.payload ++ t) hm.1 hm.2.1
  rw [hm.2.2] at h
  exact h

theorem processBuffer_frame (m : FramedMsg) (hm : m.WF) (t : List Char) :
    processBuffer (m.frame ++ t) =
      (m.payload :: (processBuffer t).1, (processBuffer t).2) := by
  have hf := findHeader_frame m hm t
  have hflen := frame_length m
  have hnl : ¬ (m.frame ++ t).length < 16 + m.lenDigits.length + 4 + m.payload.length := by
    rw [List.length_append]
    omega
  rw [processBuffer_step hf hnl]
  have hA : m.frame = clHeader ++ m.lenDigits ++ crlf2 ++ m.payload := rfl
  have hAlen : (clHeader ++ m.lenDigits ++ crlf2).length = 16 + m.lenDigits.length + 4 := by
    simp only [List.length_append]
    have h1 : clHeader.length = 16 := rfl
    have h2 : crlf2.length = 4 := rfl
    omega
  have hdrop1 : (m.frame ++ t).drop (16 + m.lenDigits.length + 4) = m.payload ++ t := by
    rw [hA, List.append_assoc, List.drop_left' hAlen]
  have hlen2 : m.frame.length = 16 + m.lenDigits.length + 4 + m.payload.length := hflen
  have hdrop2 : (m.frame ++ t).drop (16 + m.lenDigits.length + 4 + m.payload.length) = t :=
    List.drop_left' hlen2
  rw [hdrop1, hdrop2, List.take_left]

theorem matchHeaderAt_sub_crlf2 {s : List Char} {r : Nat × Nat}
    (h : matchHeaderAt s = some r) : ∃ a b, s = a ++ (crlf2 ++ b) := by
  simp only [matchHeaderAt] at h
  by_cases h16 : s.take 16 = clHeader
  case neg =>
    rw [if_neg h16] at h
    exact Option.noConfusion h
  case pos =>
    rw [if_pos h16] at h
    by_cases hds : (s.drop 16).takeWhile (fun c => c.isDigit) = []
    · rw [if_pos hds] at h
      exact Option.noConfusion h
    · rw [if_neg hds] at h
      by_cases hc4 : ((s.drop 16).drop
          ((s.drop 16).takeWhile (fun c => c.isDigit)).length).take 4 = crlf2
      · refine ⟨clHeader ++
            (s.drop 16).take ((s.drop 16).takeWhile (fun c => c.isDigit)).length,
          ((s.drop 16).drop ((s.drop 16).takeWhile (fun c => c.isDigit)).length).drop 4, ?_⟩
        conv_lhs => rw [← List.take_append_drop 16 s]
        rw [h16]
        conv_lhs =>
          rw [← List.take_append_drop
            ((s.drop 16).takeWhile (fun c => c.isDigit)).length (s.drop 16)]
        conv_lhs =>
          rw [← List.take_append_drop 4
            ((s.drop 16).drop ((s.drop 16).takeWhile (fun c => c.isDigit)).length)]
        rw [hc4]
        simp [List.append_assoc]
      · rw [if_neg hc4] at h
        exact Option.noConfusion h

theorem findHeader_sub_crlf2 : ∀ {s : List Char} {r : Nat × Nat},
    findHeader s = some r → ∃ a b, s = a ++ (crlf2 ++ b) := by
  intro s
  induction s with
  | nil => intro r h; exact Option.noConfusion h
  | cons c l ih =>
    intro r h
    unfold findHeader at h
    cases hm : matchHeaderAt (c :: l) with
    | some r' => exact matchHeaderAt_sub_crlf2 hm
    | none =>
      rw [hm] at h
      obtain ⟨a, b, hab⟩ := ih h
      exact ⟨c :: a, b, by rw [hab]; rfl⟩

theorem findHeader_none_of_count {s : List Char} (h : s.count '\n' ≤ 1) :
    findHeader s = none := by
  cases hf : findHeader s with
  | none => rfl
  | some r =>
    exfalso
    obtain ⟨a, b, hab⟩ := findHeader_sub_crlf2 hf
    rw [hab, List.count_append, List.count_append] at h
    have hc : crlf2.count '\n' = 2 := rfl
    rw [hc] at h
    omega

theorem count_nl_digits {ds : List Char} (h : ∀ c ∈ ds, c.isDigit = true) :
    ds.count '\n' = 0 := by
  rw [List.count_eq_zero]
  intro hmem
  exact absurd (h '\n' hmem) (by decide)

theorem processBuffer_take_frame (m : FramedMsg) (hm : m.WF) (k : Nat)
    (hk : k < m.frame.length) :
    processBuffer (m.frame.take k) = ([], m.frame.take k) := by
  by_cases hsmall : k < 16 + m.lenDigits.length + 4
  · apply processBuffer_none
    apply findHeader_none_of_count
    have hH3 : m.frame = (clHeader ++ m.lenDigits ++ ['\r', '\n', '\r']) ++
        ('\n' :: m.payload) := by
      simp [FramedMsg.frame, crlf2, List.append_assoc]
    have hH3len : (clHeader ++ m.lenDigits ++ ['\r', '\n', '\r']).length =
        16 + m.lenDigits.length + 3 := by
      simp only [List.length_append]
      have h1 : clHeader.length = 16 := rfl
      have h2 : (['\r', '\n', '\r'] : List Char).length = 3 := rfl
      omega
    have htk : m.frame.take k = (clHeader ++ m.lenDigits ++ ['\r', '\n', '\r']).take k := by
      rw [hH3, List.take_append_eq_append_take]
      have hz : k - (clHeader ++ m.lenDigits ++ ['\r', '\n', '\r']).length = 0 := by
        omega
      rw [hz]
      simp
    rw [htk]
    have hsub : ((clHeader ++ m.lenDigits ++ ['\r', '\n', '\r']).take k).count '\n' ≤
        (clHeader ++ m.lenDigits ++ ['\r', '\n', '\r']).count '\n' :=
      List.Sublist.count_le (List.take_sublist k _) '\n'
    have hcnt : (clHeader ++ m.lenDigits ++ ['\r', '\n', '\r']).count '\n' = 1 := by
      rw [List.count_append, List.count_append]
      have h1 : clHeader.count '\n' = 0 := rfl
      have h2 : (['\r', '\n', '\r'] : List Char).count '\n' = 1 := rfl
      rw [h1, h2, count_nl_digits hm.2.1]
    omega
  · have hk2 : 16 + m.lenDigits.length + 4 ≤ k := Nat.le_of_not_lt hsmall
    have hA : m.frame = clHeader ++ m.lenDigits ++ crlf2 ++ m.payload := rfl
    have hAlen : (clHeader ++ m.lenDigits ++ crlf2).length = 16 + m.lenDigits.length + 4 := by
      simp only [List.length_append]
      have h1 : clHeader.length = 16 := rfl
      have h2 : crlf2.length = 4 := rfl
      omega
    have htk : m.frame.take k =
        clHeader ++ (m.lenDigits ++ (crlf2 ++
          m.payload.take (k - (16 + m.lenDigits.length + 4)))) := by
      rw [hA, List.take_append_eq_append_take, List.take_of_length_le (by omega), hAlen]
      simp [List.append_assoc]
    have hfh : findHeader (clHeader ++ (m.lenDigits ++ (crlf2 ++
        m.payload.take (k - (16 + m.lenDigits.length + 4))))) =
        some (m.payload.length, 16 + m.lenDigits.length + 4) := by
      have h := findHeader_full m.lenDigits
        (m.payload.take (k - (16 + m.lenDigits.length + 4))) hm.1 hm.2.1
      rw [hm.2.2] at h
      exact h
    rw [htk]
    apply processBuffer_short hfh
    simp only [List.length_append, List.length_take]
    have h1 : clHeader.length = 16 := rfl
    have h2 : crlf2.length = 4 := rfl
    have hfl := frame_length m
    omega

theorem frames_cons (m : FramedMsg) (ms : List FramedMsg) :
    frames (m :: ms) = m.frame ++ frames ms := by
  simp [frames]

theorem frames_append (a b : List FramedMsg) :
    frames (a ++ b) = frames a ++ frames b := by
  simp [frames]

theorem processBuffer_take_frames :
    ∀ (ms : List FramedMsg), (∀ m ∈ ms, m.WF) → ∀ (k : Nat),
      ∃ ms1 ms2 r, ms = ms1 ++ ms2 ∧
        (frames ms).take k = frames ms1 ++ r ∧
        processBuffer ((frames ms).take k) = (ms1.map FramedMsg.payload, r) ∧
        processBuffer r = ([], r) := by
  intro ms
  induction ms with
  | nil =>
    intro _ k
    refine ⟨[], [], [], rfl, by simp [frames], ?_, processBuffer_none rfl⟩
    show processBuffer (([] : List Char).take k) = ([], [])
    rw [List.take_nil]
    exact processBuffer_none rfl
  | cons m ms ih =>
    intro hwf k
    have hm : m.WF := hwf m (by simp)
    have hwf' : ∀ m' ∈ ms, m'.WF := fun m' h' => hwf m' (by simp [h'])
    by_cases hk : k < m.frame.length
    · have ht : (frames (m :: ms)).take k = m.frame.take k := by
        rw [frames_cons, List.take_append_eq_append_take,
          Nat.sub_eq_zero_of_le (Nat.le_of_lt hk)]
        simp
      refine ⟨[], m :: ms, m.frame.take k, rfl, ?_, ?_, ?_⟩
      · rw [ht]
        rfl
      · rw [ht, processBuffer_take_frame m hm k hk]
        rfl
      · exact processBuffer_take_frame m hm k hk
    · have hk2 : m.frame.length ≤ k := Nat.le_of_not_lt hk
      have ht : (frames (m :: ms)).take k =
          m.frame ++ (frames ms).take (k - m.frame.length) := by
        rw [frames_cons, List.take_append_eq_append_take, List.take_of_length_le hk2]
      obtain ⟨ms1, ms2, r, hsp, htk, hpb, hq⟩ := ih hwf' (k - m.frame.length)
      refine ⟨m :: ms1, ms2, r, by simp [hsp], ?_, ?_, hq⟩
      · rw [ht, htk, frames_cons, List.append_assoc]
      · rw [ht, processBuffer_frame m hm _, hpb]
        rfl

theorem runFramer_go :
    ∀ (chunks : List (List Char)) (ms : List FramedMsg) (emitted : List (List Char))
      (buf : List Char), (∀ m ∈ ms, m.WF) →
      buf ++ chunks.flatten = frames ms →
      processBuffer buf = ([], buf) →
      chunks.foldl framerStep (emitted, buf) = (emitted ++ ms.map FramedMsg.payload, []) := by
  intro chunks
  induction chunks with
  | nil =>
    intro ms emitted buf hwf hjoin hq
    simp only [List.flatten_nil, List.append_nil] at hjoin
    cases ms with
    | nil =>
      have hb : buf = [] := by simpa [frames] using hjoin
      subst hb
      simp
    | cons m ms' =>
      exfalso
      have hm : m.WF := hwf m (by simp)
      have hfr := processBuffer_frame m hm (frames ms')
      rw [← frames_cons, ← hjoin, hq] at hfr
      simp at hfr
  | cons c cs ih =>
    intro ms emitted buf hwf hjoin hq
    have hfull : (buf ++ c) ++ cs.flatten = frames ms := by
      simpa [List.append_assoc] using hjoin
    have hbc : buf ++ c = (frames ms).take (buf ++ c).length := by
      rw [← hfull, List.take_left]
    obtain ⟨ms1, ms2, r, hsp, htk, hpb, hq'⟩ :=
      processBuffer_take_frames ms hwf ((buf ++ c).length)
    have hstep : framerStep (emitted, buf) c = (emitted ++ ms1.map FramedMsg.payload, r) := by
      simp only [framerStep]
      rw [hbc, hpb]
    rw [List.foldl_cons, hstep]
    have hwf2 : ∀ m' ∈ ms2, m'.WF := fun m' h' =>
      hwf m' (by rw [hsp]; exact List.mem_append_right _ h')
    have hjoin2 : r ++ cs.flatten = frames ms2 := by
      have h1 : frames ms1 ++ (r ++ cs.flatten) = frames ms1 ++ frames ms2 := by
        calc frames ms1 ++ (r ++ cs.flatten)
            = (frames ms1 ++ r) ++ cs.flatten := by rw [List.append_assoc]
          _ = (buf ++ c) ++ cs.flatten := by rw [← htk, ← hbc]
          _ = frames ms := hfull
          _ = frames ms1 ++ frames ms2 := by rw [hsp, frames_append]
      exact List.append_cancel_left h1
    have ihh := ih ms2 (emitted ++ ms1.map FramedMsg.payload) r hwf2 hjoin2 hq'
    rw [ihh, hsp]
    simp [List.map_append, List.append_assoc]

/-- runFramer_complete is the string-level core of the framer result: when
the decoded stream forms messages whose length digits count string units,
every split of that decoded stream is reassembled exactly. The source only
guarantees the string-unit hypothesis for single-byte text, because the
wire length prefix counts bytes while messageBuffer arithmetic counts string
units; the byte-level claim is settled below. -/
theorem runFramer_complete (ms : List FramedMsg) (chunks : List (List Char))
    (hwf : ∀ m ∈ ms, m.WF) (hsplit : chunks.flatten = frames ms) :
    runFramer chunks = (ms.map FramedMsg.payload, []) := by
  unfold runFramer
  have h := runFramer_go chunks ms [] [] hwf (by simpa using hsplit)
    (processBuffer_none rfl)
  simpa using h

/- Bridge between the byte level and the string level for single-byte
streams. -/

theorem utf8EncodeChar_ascii {c : Char} (h : c.toNat < 128) :
    utf8EncodeChar c = [c.toNat] := by
  simp only [utf8EncodeChar]
  rw [if_pos h]

theorem utf8Encode_ascii (s : List Char) (h : ∀ c ∈ s, c.toNat < 128) :
    utf8Encode s = s.map Char.toNat := by
  induction s with
  | nil => rfl
  | cons c cs ih =>
    have ih' := ih fun x hx => h x (by simp [hx])
    simp only [utf8Encode, List.map_cons, List.flatten_cons] at ih' ⊢
    rw [utf8EncodeChar_ascii (h c (by simp)), ih']
    rfl

theorem utf8Decode_ascii (l : List Nat) (h : ∀ b ∈ l, b < 128) :
    utf8Decode l = l.map Char.ofNat := by
  induction l with
  | nil => rfl
  | cons b bs ih =>
    have hb := h b (by simp)
    have ih' := ih fun x hx => h x (by simp [hx])
    show utf8DecodeGo (b :: bs).length (b :: bs) = (b :: bs).map Char.ofNat
    rw [List.length_cons]
    simp only [utf8DecodeGo]
    rw [if_pos hb]
    rw [show utf8DecodeGo bs.length bs = utf8Decode bs from rfl, ih']
    rfl

theorem foldl_framerStepBytes_ascii :
    ∀ (chunks : List (List Nat)) (acc : List (List Char) × List Char),
      (∀ ch ∈ chunks, ∀ b ∈ ch, b < 128) →
      chunks.foldl framerStepBytes acc =
        (chunks.map (List.map Char.ofNat)).foldl framerStep acc := by
  intro chunks
  induction chunks with
  | nil => intro acc _; rfl
  | cons ch chs ih =>
    intro acc h
    simp only [List.foldl_cons, List.map_cons]
    have hstep : framerStepBytes acc ch = framerStep acc (ch.map Char.ofNat) := by
      unfold framerStepBytes
      rw [utf8Decode_ascii ch (h ch (by simp))]
    rw [hstep]
    exact ih _ fun c hc b hb => h c (by simp [hc]) b hb

theorem runFramerBytes_ascii (chunks : List (List Nat))
    (h : ∀ ch ∈ chunks, ∀ b ∈ ch, b < 128) :
    runFramerBytes chunks = runFramer (chunks.map (List.map Char.ofNat)) := by
  unfold runFramerBytes runFramer
  exact foldl_framerStepBytes_ascii chunks ([], []) h

/-- C2: the claim fails on the code. The byte stream of two wire-well-formed
messages, the first carrying the JSON text of a one-letter non-ASCII string
(Content-Length 4 bytes, 3 string units), is delivered in a single chunk;
the extraction loop slices 4 string units, emitting the corrupted payload
with the first character of the next header appended, and the remaining
buffer has lost its header so the second message is never emitted. -/
theorem claim2_counterexample :
    (∀ m ∈ utf8DemoMsgs, m.WFBytes) ∧
    runFramerBytes [byteFrames utf8DemoMsgs] =
      ([['"', 'é', '"', 'C']], "ontent-Length: 1\r\n\r\n7".toList) ∧
    runFramerBytes [byteFrames utf8DemoMsgs] ≠
      (utf8DemoMsgs.map FramedMsg.payload, []) := by
  refine ⟨?_, by decide, by decide⟩
  intro m hm
  simp only [utf8DemoMsgs, List.mem_cons, List.not_mem_nil, or_false] at hm
  rcases hm with rfl | rfl
  · exact ⟨by decide, by decide, by decide⟩
  · exact ⟨by decide, by decide, by decide⟩

/-- C2 amended: for every sequence of byte chunks whose concatenation forms
N wire-well-formed framed messages consisting of single-byte characters
(the header text is single-byte by construction, so this restricts exactly
the payloads), under every split into chunks, including one byte per chunk,
the framer emits exactly those N payloads in order with nothing lost,
duplicated or corrupted, and the buffer ends empty; for multi-byte payloads
the byte-counted length prefix diverges from the string-unit buffer
arithmetic and the stream is mis-framed, as the counterexample shows. -/
theorem claim2_amended (ms : List FramedMsg) (chunks : List (List Nat))
    (hwf : ∀ m ∈ ms, m.WFBytes)
    (hascii : ∀ c ∈ frames ms, c.toNat < 128)
    (hsplit : chunks.flatten = byteFrames ms) :
    runFramerBytes chunks = (ms.map FramedMsg.payload, []) := by
  have henc : byteFrames ms = (frames ms).map Char.toNat :=
    utf8Encode_ascii (frames ms) hascii
  have hchunk : ∀ ch ∈ chunks, ∀ b ∈ ch, b < 128 := by
    intro ch hch b hb
    have hbf : b ∈ chunks.flatten := List.mem_flatten.2 ⟨ch, hch, hb⟩
    rw [hsplit, henc] at hbf
    obtain ⟨c, hc, rfl⟩ := List.mem_map.1 hbf
    exact hascii c hc
  rw [runFramerBytes_ascii chunks hchunk]
  have hflat : (chunks.map (List.map Char.ofNat)).flatten = frames ms := by
    rw [← List.map_flatten, hsplit, henc, List.map_map,
      show Char.ofNat ∘ Char.toNat = id from funext Char.ofNat_toNat, List.map_id]
  have hwf' : ∀ m ∈ ms, m.WF := by
    intro m hm
    obtain ⟨h1, h2, h3⟩ := hwf m hm
    refine ⟨h1, h2, ?_⟩
    have hpay : ∀ c ∈ m.payload, c.toNat < 128 := by
      intro c hc
      apply hascii
      have hmem1 : c ∈ m.frame := by
        simp only [FramedMsg.frame, List.mem_append]
        exact Or.inr hc
      exact List.mem_flatten.2 ⟨m.frame, List.mem_map_of_mem _ hm, hmem1⟩
    rw [h3, utf8Encode_ascii m.payload hpay, List.length_map]
  exact runFramer_complete ms (chunks.map (List.map Char.ofNat)) hwf' hflat

/-- Witness instantiating claim2_amended: the two single-byte demo messages
delivered one byte per chunk are reassembled exactly. -/
theorem claim2_amended_witness :
    runFramerBytes ((byteFrames demoMsgs).map (fun b => [b])) =
      (demoMsgs.map FramedMsg.payload, []) :=
  claim2_amended demoMsgs ((byteFrames demoMsgs).map (fun b => [b]))
    (by
      intro m hm
      simp only [demoMsgs, List.mem_cons, List.not_mem_nil, or_false] at hm
      rcases hm with rfl | rfl
      · exact ⟨by decide, by decide, by decide⟩
      · exact ⟨by decide, by decide, by decide⟩)
    (by decide)
    (by rfl)

end Lsp
